import Mathlib

/-!
Verification of the fuzzy subsequence matching and ranking pipeline
(`lilium_palette/fuzzy.py`).

Modelling conventions: Python strings are `List Char`; per-character
`str.lower()` / `str.islower()` / `str.isupper()` are `Char.toLower` /
`Char.isLower` / `Char.isUpper` (the pipeline is documented as
ASCII/Latin-oriented); Python integers are `Int`; fallible results are
`Option`; Python's stable `list.sort` is modelled by `List.insertionSort`
with a total preorder comparator (any stable sort agrees with it);
`l[:limit]` including Python's negative-index semantics is `pySlice`.
-/

namespace LiliumPalette

def SCORE_CONSECUTIVE : Int := 16

def SCORE_WORD_BOUNDARY : Int := 32

def SCORE_FIRST_CHAR : Int := 16

def SCORE_GAP_PENALTY : Int := -3

def WORD_BOUNDARY_CHARS : List Char := ['/', '_', '-', '.', ' ']

/-- Result of fuzzy matching with score and match positions. -/
structure FuzzyMatch where
  score : Int
  positions : List Nat
deriving DecidableEq, Repr

/-- `_is_word_boundary(target, index)`: check if position is at a word
boundary.  Only called with `index < target.length`, so the `getD`
default is never read. -/
def is_word_boundary (target : List Char) (index : Nat) : Bool :=
  if index = 0 then true
  else
    let prev_char := target.getD (index - 1) ' '
    if WORD_BOUNDARY_CHARS.contains prev_char then true
    else
      let curr_char := target.getD index ' '
      prev_char.isLower && curr_char.isUpper

/-- The inner `while target_idx < target_len` scan: first index `≥ i`
(communicated through the running counter) whose character equals `c`. -/
def findFromAux (c : Char) : List Char → Nat → Option Nat
  | [], _ => none
  | x :: xs, i => if x = c then some i else findFromAux c xs (i + 1)

/-- First index `j ≥ i` with `tl.getD j _ = c`, as scanned by the
`while` loop of `fuzzy_match` / `fuzzy_score`. -/
def findFrom (tl : List Char) (c : Char) (i : Nat) : Option Nat :=
  findFromAux c (tl.drop i) i

/-- The `for query_idx, query_char in enumerate(query_lower)` loop of
`fuzzy_match`, with explicit state `(query_idx, target_idx,
prev_match_idx, score, positions)`.  `target` is the original target
(used for boundary detection), `tl` its lower-cased form. -/
def matchLoop (target tl : List Char) :
    List Char → Nat → Nat → Int → Int → List Nat → Option (Int × List Nat)
  | [], _, _, _, score, pos => some (score, pos)
  | qc :: qs, qi, ti, prev, score, pos =>
    match findFrom tl qc ti with
    | none => none
    | some j =>
      let s1 : Int := if qi = 0 ∧ j = 0 then score + SCORE_FIRST_CHAR else score
      let s2 : Int := if is_word_boundary target j then s1 + SCORE_WORD_BOUNDARY else s1
      let s3 : Int :=
        if 0 ≤ prev then
          if (j : Int) - prev - 1 = 0 then s2 + SCORE_CONSECUTIVE
          else s2 + ((j : Int) - prev - 1) * SCORE_GAP_PENALTY
        else s2
      matchLoop target tl qs (qi + 1) (j + 1) (j : Int) s3 (pos ++ [j])

/-- `fuzzy_match(query, target)`: fzf-style greedy fuzzy matching.
Returns `none` if `query` doesn't match `target` as a subsequence. -/
def fuzzy_match (query target : List Char) : Option FuzzyMatch :=
  if query = [] then some ⟨0, []⟩
  else
    let query_lower := query.map Char.toLower
    let target_lower := target.map Char.toLower
    if target.length < query.length then none
    else
      match matchLoop target target_lower query_lower 0 0 (-1) 0 [] with
      | none => none
      | some (s, ps) => some ⟨s, ps⟩

/-- The scan loop of `fuzzy_score`: identical to `matchLoop` except that
no positions are recorded. -/
def scoreLoop (target tl : List Char) :
    List Char → Nat → Nat → Int → Int → Option Int
  | [], _, _, _, score => some score
  | qc :: qs, qi, ti, prev, score =>
    match findFrom tl qc ti with
    | none => none
    | some j =>
      let s1 : Int := if qi = 0 ∧ j = 0 then score + SCORE_FIRST_CHAR else score
      let s2 : Int := if is_word_boundary target j then s1 + SCORE_WORD_BOUNDARY else s1
      let s3 : Int :=
        if 0 ≤ prev then
          if (j : Int) - prev - 1 = 0 then s2 + SCORE_CONSECUTIVE
          else s2 + ((j : Int) - prev - 1) * SCORE_GAP_PENALTY
        else s2
      scoreLoop target tl qs (qi + 1) (j + 1) (j : Int) s3

/-- `fuzzy_score(query, target)`: simplified fuzzy matching returning
only the score. -/
def fuzzy_score (query target : List Char) : Option Int :=
  if query = [] then some 0
  else
    let query_lower := query.map Char.toLower
    let target_lower := target.map Char.toLower
    if target.length < query.length then none
    else scoreLoop target target_lower query_lower 0 0 (-1) 0

/-- Python string `<=`: lexicographic comparison of code points. -/
def strLeB : List Char → List Char → Bool
  | [], _ => true
  | _ :: _, [] => false
  | a :: as, b :: bs =>
    if a.toNat < b.toNat then true
    else if b.toNat < a.toNat then false
    else strLeB as bs

/-- The comparator induced by the sort key `lambda x: (-x[1], key(x[0]))`
of `rank_matches`: lexicographic `≤` on `(-score, extracted string)`. -/
def sortPairLeB {T : Type} (key : T → List Char) (x y : T × Int) : Bool :=
  if -x.2 < -y.2 then true
  else if -x.2 = -y.2 then strLeB (key x.1) (key y.1)
  else false

/-- The sort comparator as a relation, for `List.insertionSort`. -/
def sortRel {T : Type} (key : T → List Char) : T × Int → T × Int → Prop :=
  fun x y => sortPairLeB key x y = true

instance {T : Type} (key : T → List Char) : DecidableRel (sortRel key) :=
  fun x y => decidable_of_iff (sortPairLeB key x y = true) Iff.rfl

/-- Python `l[:limit]` for an `int` limit: non-negative limits take a
prefix, negative limits drop `|limit|` elements from the end. -/
def pySlice {α : Type} (l : List α) (limit : Int) : List α :=
  if 0 ≤ limit then l.take limit.toNat
  else l.take (l.length - (-limit).toNat)

/-- `rank_matches(query, items, key, limit)`: rank items by fuzzy match
score; Python's stable `sort` is modelled by stable insertion sort. -/
def rank_matches {T : Type} (query : List Char) (items : List T)
    (key : T → List Char) (limit : Int) : List (T × Int) :=
  if query = [] then (pySlice items limit).map (fun item => (item, 0))
  else
    let scored := items.filterMap (fun item =>
      (fuzzy_score query (key item)).map (fun s => (item, s)))
    pySlice (List.insertionSort (sortRel key) scored) limit

/-- `text.replace(c, r)` for a single-character search string `c`. -/
def strReplace (c : Char) (r : List Char) : List Char → List Char
  | [] => []
  | x :: xs => (if x = c then r else [x]) ++ strReplace c r xs

/-- `"%".join(s)` over the characters of `s`. -/
def joinPercent : List Char → List Char
  | [] => []
  | [c] => [c]
  | c :: c2 :: cs => c :: '%' :: joinPercent (c2 :: cs)

/-- `build_sql_pattern(query)`: build a SQL LIKE pattern for
pre-filtering candidates. -/
def build_sql_pattern (query : List Char) : List Char :=
  if query = [] then ['%']
  else
    let escaped := strReplace '_' ['\\', '_'] (strReplace '%' ['\\', '%'] query)
    '%' :: (joinPercent (escaped.map Char.toLower) ++ ['%'])

/-- Position `p` in the (lower-cased) target carries character `c`. -/
def MatchAt (tl : List Char) (p : Nat) (c : Char) : Prop :=
  p < tl.length ∧ tl.getD p ' ' = c

/-- A position list is a correct case-insensitive alignment of `query`
inside `target`: strictly increasing, one position per query character,
and the target character at position `k` lower-cases to the `k`-th query
character's lower case. -/
def PositionsOk (query target : List Char) (ps : List Nat) : Prop :=
  ps.Pairwise (· < ·) ∧ ps.length = query.length ∧
    ∀ pr ∈ ps.zip query, pr.1 < target.length ∧
      (target.getD pr.1 ' ').toLower = pr.2.toLower

/-- The sortedness property claimed for `rank_matches` output: score
strictly descending, ties broken by extracted string ascending. -/
def RankPairLe {T : Type} (key : T → List Char) (x y : T × Int) : Prop :=
  y.2 < x.2 ∨ (x.2 = y.2 ∧ strLeB (key x.1) (key y.1) = true)

instance {T : Type} (key : T → List Char) (x y : T × Int) :
    Decidable (RankPairLe key x y) :=
  decidable_of_iff (y.2 < x.2 ∨ (x.2 = y.2 ∧ strLeB (key x.1) (key y.1) = true)) Iff.rfl

/-- Specification form of the escaping step: each wildcard token (`%`
or `_`) is prefixed by the escape marker `\`, other characters pass
through unchanged. -/
def escapeEach : List Char → List Char
  | [] => []
  | c :: cs => (if c = '%' ∨ c = '_' then ['\\', c] else [c]) ++ escapeEach cs

lemma scoreLoop_eq_matchLoop (target tl : List Char) :
    ∀ (qs : List Char) (qi ti : Nat) (prev score : Int) (pos : List Nat),
      scoreLoop target tl qs qi ti prev score =
        (matchLoop target tl qs qi ti prev score pos).map Prod.fst := by
  intro qs
  induction qs with
  | nil => intro qi ti prev score pos; simp [scoreLoop, matchLoop]
  | cons qc qs ih =>
    intro qi ti prev score pos
    simp only [scoreLoop, matchLoop]
    cases findFrom tl qc ti with
    | none => simp
    | some j => simpa using ih (qi + 1) (j + 1) (j : Int) _ (pos ++ [j])

/-- C1: the score-only variant agrees exactly with the full matcher:
`fuzzy_score query target` equals `(fuzzy_match query target).map score`,
so both succeed with the same score or both return no-match. -/
theorem fuzzy_score_eq_fuzzy_match_score (query target : List Char) :
    fuzzy_score query target = (fuzzy_match query target).map FuzzyMatch.score := by
  unfold fuzzy_score fuzzy_match
  by_cases hq : query = []
  · simp [hq]
  · simp only [hq, if_false]
    by_cases hlen : target.length < query.length
    · simp [hlen]
    · simp only [hlen, if_false]
      rw [scoreLoop_eq_matchLoop target (target.map Char.toLower)
        (query.map Char.toLower) 0 0 (-1) 0 []]
      cases matchLoop target (target.map Char.toLower) (query.map Char.toLower) 0 0 (-1) 0 [] with
      | none => simp
      | some r => cases r; simp

/-- C4: the matcher produces exactly the spec's concrete scoring
outcomes: `fuzzy_match "ab" "ab"` returns score 64 with positions
`[0, 1]`, and `fuzzy_match "fb" "foo_bar"` returns score 71 with
positions `[0, 4]`. -/
theorem fuzzy_match_concrete_scores :
    fuzzy_match ['a', 'b'] ['a', 'b'] = some ⟨64, [0, 1]⟩ ∧
    fuzzy_match ['f', 'b'] ['f', 'o', 'o', '_', 'b', 'a', 'r'] = some ⟨71, [0, 4]⟩ := by
  constructor <;> decide

lemma findFromAux_some (c : Char) :
    ∀ (l : List Char) (i j : Nat), findFromAux c l i = some j →
      i ≤ j ∧ j - i < l.length ∧ l.getD (j - i) ' ' = c ∧
        ∀ k, k < j - i → l.getD k ' ' ≠ c := by
  intro l
  induction l with
  | nil => intro i j h; simp [findFromAux] at h
  | cons x xs ih =>
    intro i j h
    unfold findFromAux at h
    by_cases hx : x = c
    · simp only [hx, if_true, Option.some.injEq] at h
      subst h
      simp [hx]
    · simp only [hx, if_false] at h
      obtain ⟨h1, h2, h3, h4⟩ := ih (i + 1) j h
      have hij : i < j := by omega
      refine ⟨by omega, by simp; omega, ?_, ?_⟩
      · have : j - i = (j - (i + 1)) + 1 := by omega
        rw [this]
        simpa using h3
      · intro k hk
        match k with
        | 0 => simpa using hx
        | k + 1 =>
          have : k < j - (i + 1) := by omega
          simpa using h4 k this

lemma findFromAux_none (c : Char) :
    ∀ (l : List Char) (i : Nat), findFromAux c l i = none → c ∉ l := by
  intro l
  induction l with
  | nil => intro i _; simp
  | cons x xs ih =>
    intro i h
    unfold findFromAux at h
    by_cases hx : x = c
    · simp [hx] at h
    · simp only [hx, if_false] at h
      have := ih (i + 1) h
      simp only [List.mem_cons, not_or]
      exact ⟨fun e => hx e.symm, this⟩

lemma findFrom_le {tl : List Char} {c : Char} {i j : Nat}
    (h : findFrom tl c i = some j) : i ≤ j :=
  (findFromAux_some c (tl.drop i) i j h).1

lemma findFrom_lt_length {tl : List Char} {c : Char} {i j : Nat}
    (h : findFrom tl c i = some j) : j < tl.length := by
  have := (findFromAux_some c (tl.drop i) i j h).2.1
  have hle := findFrom_le h
  simp [List.length_drop] at this
  omega

lemma findFrom_getD {tl : List Char} {c : Char} {i j : Nat}
    (h : findFrom tl c i = some j) : tl.getD j ' ' = c := by
  obtain ⟨h1, h2, h3, _⟩ := findFromAux_some c (tl.drop i) i j h
  have hj := findFrom_lt_length h
  rw [List.getD_eq_getElem _ _ (by simpa [List.length_drop] using h2)] at h3
  rw [List.getD_eq_getElem _ _ hj]
  rw [List.getElem_drop] at h3
  have hidx : i + (j - i) = j := by omega
  simp only [hidx] at h3
  exact h3

lemma findFrom_min {tl : List Char} {c : Char} {i j : Nat}
    (h : findFrom tl c i = some j) :
    ∀ k, i ≤ k → k < j → tl.getD k ' ' ≠ c := by
  obtain ⟨h1, h2, _, h4⟩ := findFromAux_some c (tl.drop i) i j h
  intro k hik hkj
  have hk : k - i < j - i := by omega
  have := h4 (k - i) hk
  have hklen : k < tl.length := lt_of_lt_of_le hkj (le_of_lt (findFrom_lt_length h))
  rw [List.getD_eq_getElem _ _ (by simp [List.length_drop]; omega)] at this
  rw [List.getElem_drop] at this
  have hik2 : i + (k - i) = k := by omega
  simp only [hik2] at this
  rwa [List.getD_eq_getElem _ _ hklen]

lemma findFrom_some_of_mem {tl : List Char} {c : Char} {i : Nat}
    (h : c ∈ tl.drop i) : ∃ j, findFrom tl c i = some j := by
  unfold findFrom
  cases hf : findFromAux c (tl.drop i) i with
  | none => exact absurd h (findFromAux_none c (tl.drop i) i hf)
  | some j => exact ⟨j, rfl⟩

lemma matchLoop_spec (target tl : List Char) :
    ∀ (qs : List Char) (qi ti : Nat) (prev score : Int) (pos : List Nat)
      (s : Int) (psf : List Nat),
      matchLoop target tl qs qi ti prev score pos = some (s, psf) →
      ∃ newPs, psf = pos ++ newPs ∧
        (∀ p ∈ newPs, ti ≤ p) ∧
        newPs.Pairwise (· < ·) ∧
        List.Forall₂ (MatchAt tl) newPs qs ∧
        ∀ ps2, (∀ p ∈ ps2, ti ≤ p) → ps2.Pairwise (· < ·) →
          List.Forall₂ (MatchAt tl) ps2 qs → List.Forall₂ (· ≤ ·) newPs ps2 := by
  intro qs
  induction qs with
  | nil =>
    intro qi ti prev score pos s psf h
    simp only [matchLoop, Option.some.injEq, Prod.mk.injEq] at h
    refine ⟨[], by simp [h.2.symm], by simp, by simp, List.Forall₂.nil, ?_⟩
    intro ps2 _ _ hf
    cases hf
    exact List.Forall₂.nil
  | cons qc qs ih =>
    intro qi ti prev score pos s psf h
    simp only [matchLoop] at h
    cases hf : findFrom tl qc ti with
    | none => rw [hf] at h; simp at h
    | some j =>
      rw [hf] at h
      simp only at h
      obtain ⟨newPs, hpsf, hge, hpw, hfa, hmin⟩ :=
        ih (qi + 1) (j + 1) (j : Int) _ (pos ++ [j]) s psf h
      refine ⟨j :: newPs, ?_, ?_, ?_, ?_, ?_⟩
      · rw [hpsf, List.append_assoc]; rfl
      · intro p hp
        rcases List.mem_cons.mp hp with rfl | hp'
        · exact findFrom_le hf
        · have h1 := findFrom_le hf
          have h2 := hge p hp'
          omega
      · exact List.pairwise_cons.mpr ⟨fun p hp => lt_of_lt_of_le (Nat.lt_succ_self j) (hge p hp), hpw⟩
      · exact List.Forall₂.cons ⟨findFrom_lt_length hf, findFrom_getD hf⟩ hfa
      · intro ps2 hge2 hpw2 hfa2
        cases hfa2 with
        | cons hm2 hrest =>
          rename_i p2 rest2
          have hjp2 : j ≤ p2 := by
            by_contra hlt
            push_neg at hlt
            exact findFrom_min hf p2 (hge2 p2 (List.mem_cons_self _ _)) hlt hm2.2
          refine List.Forall₂.cons hjp2 (hmin rest2 ?_ (List.pairwise_cons.mp hpw2).2 hrest)
          intro p hp
          have := (List.pairwise_cons.mp hpw2).1 p hp
          omega

lemma cons_sublist_of_not_mem_left {α : Type} {a : α} {l r : List α} :
    ∀ x : List α, (a :: l).Sublist (x ++ r) → a ∉ x → (a :: l).Sublist r := by
  intro x
  induction x with
  | nil => intro h _; simpa using h
  | cons b x ih =>
    intro h hm
    rw [List.cons_append] at h
    cases h with
    | cons _ h' => exact ih h' (fun hx => hm (List.mem_cons_of_mem b hx))
    | cons₂ _ h' => exact absurd (List.mem_cons_self _ _) hm

lemma sublist_drop_succ_of_findFrom {tl : List Char} {qc : Char} {qs : List Char}
    {ti j : Nat} (hsub : (qc :: qs).Sublist (tl.drop ti))
    (hf : findFrom tl qc ti = some j) : qs.Sublist (tl.drop (j + 1)) := by
  have hij := findFrom_le hf
  have hjlen := findFrom_lt_length hf
  have hsplit : tl.drop ti = (tl.drop ti).take (j - ti) ++ tl.drop j := by
    have h1 : tl.drop j = (tl.drop ti).drop (j - ti) := by
      rw [List.drop_drop]
      congr 1
      omega
    rw [h1, List.take_append_drop]
  rw [hsplit] at hsub
  have hnm : qc ∉ (tl.drop ti).take (j - ti) := by
    intro hm
    obtain ⟨k, hk, hget⟩ := List.getElem_of_mem hm
    have hk2 : k < j - ti := by
      have := hk
      simp [List.length_take] at this
      omega
    rw [List.getElem_take] at hget
    rw [List.getElem_drop] at hget
    have hlt : ti + k < j := by omega
    have := findFrom_min hf (ti + k) (by omega) hlt
    rw [List.getD_eq_getElem _ _ (by omega)] at this
    exact this hget
  have hsub2 : (qc :: qs).Sublist (tl.drop j) :=
    cons_sublist_of_not_mem_left _ hsub hnm
  rw [List.drop_eq_getElem_cons hjlen] at hsub2
  have hget : tl[j] = qc := by
    have := findFrom_getD hf
    rwa [List.getD_eq_getElem _ _ hjlen] at this
  rw [hget] at hsub2
  exact List.cons_sublist_cons.mp hsub2

lemma matchLoop_some_of_sublist (target tl : List Char) :
    ∀ (qs : List Char) (qi ti : Nat) (prev score : Int) (pos : List Nat),
      qs.Sublist (tl.drop ti) →
      ∃ r, matchLoop target tl qs qi ti prev score pos = some r := by
  intro qs
  induction qs with
  | nil => intro qi ti prev score pos _; exact ⟨(score, pos), rfl⟩
  | cons qc qs ih =>
    intro qi ti prev score pos hsub
    obtain ⟨j, hf⟩ := findFrom_some_of_mem (List.mem_of_cons_sublist hsub)
    obtain ⟨r, hr⟩ := ih (qi + 1) (j + 1) (j : Int) _ (pos ++ [j])
      (sublist_drop_succ_of_findFrom hsub hf)
    refine ⟨r, ?_⟩
    simp only [matchLoop]
    rw [hf]
    exact hr

lemma positionsOk_iff_forall₂ (query target : List Char) (ps : List Nat) :
    PositionsOk query target ps ↔
      ps.Pairwise (· < ·) ∧
        List.Forall₂ (MatchAt (target.map Char.toLower)) ps (query.map Char.toLower) := by
  unfold PositionsOk
  constructor
  · rintro ⟨hpw, hlen, hall⟩
    refine ⟨hpw, (List.forall₂_iff_zip).mpr ⟨by simpa using hlen, ?_⟩⟩
    intro p c hpc
    rw [List.zip_map_right] at hpc
    obtain ⟨⟨p0, c0⟩, hmem, heq⟩ := List.mem_map.mp hpc
    simp only [Prod.map, Prod.mk.injEq, id_eq] at heq
    obtain ⟨rfl, rfl⟩ := heq
    obtain ⟨hlt, hchar⟩ := hall _ hmem
    refine ⟨by simpa using hlt, ?_⟩
    rw [List.getD_eq_getElem _ _ (by simpa using hlt), List.getElem_map]
    rw [List.getD_eq_getElem _ _ hlt] at hchar
    exact hchar
  · rintro ⟨hpw, hfa⟩
    obtain ⟨hlen, hall⟩ := (List.forall₂_iff_zip).mp hfa
    refine ⟨hpw, by simpa using hlen, ?_⟩
    rintro ⟨p, c⟩ hmem
    have hmem2 : (p, c.toLower) ∈ ps.zip (query.map Char.toLower) := by
      rw [List.zip_map_right]
      exact List.mem_map.mpr ⟨(p, c), hmem, rfl⟩
    obtain ⟨hlt, hchar⟩ := hall hmem2
    have hlt2 : p < target.length := by simpa using hlt
    refine ⟨hlt2, ?_⟩
    rw [List.getD_eq_getElem _ _ hlt] at hchar
    rw [List.getElem_map] at hchar
    rw [List.getD_eq_getElem _ _ hlt2]
    exact hchar

lemma fuzzy_match_positions_ok {query target : List Char} {m : FuzzyMatch}
    (h : fuzzy_match query target = some m) : PositionsOk query target m.positions := by
  by_cases hq : query = []
  · subst hq
    have h0 : fuzzy_match [] target = some ⟨0, []⟩ := rfl
    rw [h0] at h
    injection h with h
    subst h
    exact ⟨List.Pairwise.nil, rfl, by simp⟩
  · unfold fuzzy_match at h
    simp only [hq, if_false] at h
    by_cases hlen : target.length < query.length
    · simp [hlen] at h
    · simp only [hlen, if_false] at h
      cases hm : matchLoop target (target.map Char.toLower) (query.map Char.toLower)
          0 0 (-1) 0 [] with
      | none => rw [hm] at h; simp at h
      | some r =>
        rw [hm] at h
        cases r with
        | mk s ps =>
          simp only [Option.some.injEq] at h
          subst h
          obtain ⟨newPs, hpsf, _, hpw, hfa, _⟩ :=
            matchLoop_spec target (target.map Char.toLower) _ 0 0 (-1) 0 [] s ps hm
          simp only [List.nil_append] at hpsf
          subst hpsf
          exact (positionsOk_iff_forall₂ query target _).mpr ⟨hpw, hfa⟩

/-- C9: soundness of the matcher with no subsequence precondition:
whenever `fuzzy_match query target` returns a result, the returned
positions are strictly increasing, have length `query.length`, and the
target character at each position lower-cases to the corresponding query
character's lower case — a returned match always witnesses that the
query is a case-insensitive subsequence of the target. -/
theorem fuzzy_match_sound (query target : List Char) (m : FuzzyMatch)
    (h : fuzzy_match query target = some m) :
    m.positions.Pairwise (· < ·) ∧ m.positions.length = query.length ∧
      ∀ pr ∈ m.positions.zip query, pr.1 < target.length ∧
        (target.getD pr.1 ' ').toLower = pr.2.toLower :=
  fuzzy_match_positions_ok h

/-- C2: for every non-empty query that is a case-insensitive subsequence
of the target, `fuzzy_match` returns a result whose positions are
strictly increasing, have length `query.length`, and align each query
character with an equal (case-insensitively) target character. -/
theorem fuzzy_match_complete (query target : List Char) (hne : query ≠ [])
    (hsub : (query.map Char.toLower).Sublist (target.map Char.toLower)) :
    ∃ m, fuzzy_match query target = some m ∧
      m.positions.Pairwise (· < ·) ∧ m.positions.length = query.length ∧
        ∀ pr ∈ m.positions.zip query, pr.1 < target.length ∧
          (target.getD pr.1 ' ').toLower = pr.2.toLower := by
  have hlen : ¬ target.length < query.length := by
    have := hsub.length_le
    simp only [List.length_map] at this
    omega
  obtain ⟨r, hr⟩ := matchLoop_some_of_sublist target (target.map Char.toLower)
    (query.map Char.toLower) 0 0 (-1) 0 [] (by simpa using hsub)
  have hmatch : fuzzy_match query target = some ⟨r.1, r.2⟩ := by
    unfold fuzzy_match
    simp only [hne, if_false, hlen]
    rw [hr]
  exact ⟨⟨r.1, r.2⟩, hmatch, fuzzy_match_positions_ok hmatch⟩

lemma eq_or_lex_of_forall₂_le :
    ∀ {l₁ l₂ : List Nat}, List.Forall₂ (· ≤ ·) l₁ l₂ →
      l₁ = l₂ ∨ List.Lex (· < ·) l₁ l₂ := by
  intro l₁ l₂ h
  induction h with
  | nil => exact Or.inl rfl
  | cons hab htail ih =>
    rcases lt_or_eq_of_le hab with hlt | heq
    · exact Or.inr (List.Lex.rel hlt)
    · subst heq
      rcases ih with rfl | hlex
      · exact Or.inl rfl
      · exact Or.inr (List.Lex.cons hlex)

/-- C10: leftmost-alignment characterization: when `fuzzy_match`
succeeds on a non-empty query, the returned positions are the
lexicographically least strictly increasing alignment of the query in
the target (each query character is matched at the earliest possible
target index after the previous match). -/
theorem fuzzy_match_leftmost (query target : List Char) (m : FuzzyMatch)
    (hne : query ≠ []) (h : fuzzy_match query target = some m)
    (ps2 : List Nat) (hv : PositionsOk query target ps2) :
    m.positions = ps2 ∨ List.Lex (· < ·) m.positions ps2 := by
  unfold fuzzy_match at h
  simp only [hne, if_false] at h
  by_cases hlen : target.length < query.length
  · simp [hlen] at h
  · simp only [hlen, if_false] at h
    cases hm : matchLoop target (target.map Char.toLower) (query.map Char.toLower)
        0 0 (-1) 0 [] with
    | none => rw [hm] at h; simp at h
    | some r =>
      rw [hm] at h
      cases r with
      | mk s ps =>
        simp only [Option.some.injEq] at h
        subst h
        obtain ⟨newPs, hpsf, _, _, _, hmin⟩ :=
          matchLoop_spec target (target.map Char.toLower) _ 0 0 (-1) 0 [] s ps hm
        simp only [List.nil_append] at hpsf
        subst hpsf
        obtain ⟨hpw2, hfa2⟩ := (positionsOk_iff_forall₂ query target ps2).mp hv
        exact eq_or_lex_of_forall₂_le
          (hmin ps2 (fun p _ => Nat.zero_le p) hpw2 hfa2)

/-- Witness for C9 at `query = "fb"`, `target = "foo_bar"`. -/
theorem fuzzy_match_sound_witness :
    fuzzy_match ['f', 'b'] ['f', 'o', 'o', '_', 'b', 'a', 'r'] = some ⟨71, [0, 4]⟩ ∧
      (([0, 4] : List Nat).Pairwise (· < ·) ∧
        ([0, 4] : List Nat).length = (['f', 'b'] : List Char).length ∧
        ∀ pr ∈ ([0, 4] : List Nat).zip ['f', 'b'],
          pr.1 < (['f', 'o', 'o', '_', 'b', 'a', 'r'] : List Char).length ∧
            ((['f', 'o', 'o', '_', 'b', 'a', 'r'] : List Char).getD pr.1 ' ').toLower =
              pr.2.toLower) := by
  have h : fuzzy_match ['f', 'b'] ['f', 'o', 'o', '_', 'b', 'a', 'r'] =
      some ⟨71, [0, 4]⟩ := by decide
  exact ⟨h, fuzzy_match_sound _ _ _ h⟩

/-- Witness for C2 at `query = "fb"`, `target = "foo_bar"`. -/
theorem fuzzy_match_complete_witness :
    ((['f', 'b'] : List Char) ≠ [] ∧
      ((['f', 'b'] : List Char).map Char.toLower).Sublist
        ((['f', 'o', 'o', '_', 'b', 'a', 'r'] : List Char).map Char.toLower)) ∧
      ∃ m, fuzzy_match ['f', 'b'] ['f', 'o', 'o', '_', 'b', 'a', 'r'] = some m ∧
        m.positions.Pairwise (· < ·) ∧
        m.positions.length = (['f', 'b'] : List Char).length ∧
        ∀ pr ∈ m.positions.zip ['f', 'b'],
          pr.1 < (['f', 'o', 'o', '_', 'b', 'a', 'r'] : List Char).length ∧
            ((['f', 'o', 'o', '_', 'b', 'a', 'r'] : List Char).getD pr.1 ' ').toLower =
              pr.2.toLower :=
  ⟨⟨by decide, by decide⟩, fuzzy_match_complete _ _ (by decide) (by decide)⟩

/-- Witness for C10 at `query = "o"`, `target = "foo"`: the greedy match
lands on index 1, which lexicographically precedes the alternative
alignment `[2]`. -/
theorem fuzzy_match_leftmost_witness :
    ((['o'] : List Char) ≠ [] ∧
      fuzzy_match ['o'] ['f', 'o', 'o'] = some ⟨0, [1]⟩ ∧
      PositionsOk ['o'] ['f', 'o', 'o'] [2]) ∧
      (([1] : List Nat) = [2] ∨ List.Lex (· < ·) ([1] : List Nat) [2]) := by
  have h : fuzzy_match ['o'] ['f', 'o', 'o'] = some ⟨0, [1]⟩ := by decide
  have hv : PositionsOk ['o'] ['f', 'o', 'o'] [2] := ⟨by simp, rfl, by decide⟩
  exact ⟨⟨by decide, h, hv⟩, fuzzy_match_leftmost _ _ _ (by decide) h [2] hv⟩

lemma strLeB_total : ∀ a b : List Char, strLeB a b = true ∨ strLeB b a = true := by
  intro a
  induction a with
  | nil => intro b; left; rfl
  | cons x xs ih =>
    intro b
    cases b with
    | nil => right; rfl
    | cons y ys =>
      by_cases hxy : x.toNat < y.toNat
      · left; simp [strLeB, hxy]
      · by_cases hyx : y.toNat < x.toNat
        · right; simp [strLeB, hyx]
        · rcases ih ys with h | h
          · left; simp [strLeB, hxy, hyx, h]
          · right; simp [strLeB, hxy, hyx, h]

lemma strLeB_trans : ∀ a b c : List Char,
    strLeB a b = true → strLeB b c = true → strLeB a c = true := by
  intro a
  induction a with
  | nil => intro b c _ _; rfl
  | cons x xs ih =>
    intro b c h1 h2
    cases b with
    | nil => simp [strLeB] at h1
    | cons y ys =>
      cases c with
      | nil => simp [strLeB] at h2
      | cons z zs =>
        simp only [strLeB] at h1 h2 ⊢
        by_cases hxy : x.toNat < y.toNat
        · by_cases hyz : y.toNat < z.toNat
          · simp [show x.toNat < z.toNat by omega]
          · simp only [hyz, if_false] at h2
            by_cases hzy : z.toNat < y.toNat
            · simp [hzy] at h2
            · simp [show x.toNat < z.toNat by omega]
        · simp only [hxy, if_false] at h1
          by_cases hyx : y.toNat < x.toNat
          · simp [hyx] at h1
          · simp only [hyx, if_false] at h1
            by_cases hyz : y.toNat < z.toNat
            · simp [show x.toNat < z.toNat by omega]
            · simp only [hyz, if_false] at h2
              by_cases hzy : z.toNat < y.toNat
              · simp [hzy] at h2
              · simp only [hzy, if_false] at h2
                simp only [show ¬ x.toNat < z.toNat by omega, if_false,
                  show ¬ z.toNat < x.toNat by omega]
                exact ih ys zs h1 h2

lemma strLeB_antisymm : ∀ a b : List Char,
    strLeB a b = true → strLeB b a = true → a = b := by
  intro a
  induction a with
  | nil =>
    intro b _ h2
    cases b with
    | nil => rfl
    | cons y ys => simp [strLeB] at h2
  | cons x xs ih =>
    intro b h1 h2
    cases b with
    | nil => simp [strLeB] at h1
    | cons y ys =>
      simp only [strLeB] at h1 h2
      by_cases hxy : x.toNat < y.toNat
      · simp [show ¬ y.toNat < x.toNat by omega, show ¬ x.toNat = y.toNat by omega, hxy] at h2
      · simp only [hxy, if_false] at h1
        by_cases hyx : y.toNat < x.toNat
        · simp [hyx] at h1
        · simp only [hyx, if_false] at h1
          simp only [hyx, if_false, hxy] at h2
          have hxyc : x = y := by
            apply Char.ext
            apply UInt32.ext
            exact (by omega : x.toNat = y.toNat)
          rw [hxyc, ih ys h1 h2]

lemma sortRel_iff {T : Type} (key : T → List Char) (x y : T × Int) :
    sortRel key x y ↔
      (-x.2 < -y.2 ∨ (-x.2 = -y.2 ∧ strLeB (key x.1) (key y.1) = true)) := by
  unfold sortRel sortPairLeB
  by_cases h1 : -x.2 < -y.2
  · simp [h1]
  · by_cases h2 : -x.2 = -y.2
    · simp [h1, h2]
    · simp [h1, h2]

lemma sortRel_total {T : Type} (key : T → List Char) :
    ∀ x y : T × Int, sortRel key x y ∨ sortRel key y x := by
  intro x y
  rw [sortRel_iff, sortRel_iff]
  rcases lt_trichotomy (-x.2) (-y.2) with h | h | h
  · exact Or.inl (Or.inl h)
  · rcases strLeB_total (key x.1) (key y.1) with hs | hs
    · exact Or.inl (Or.inr ⟨h, hs⟩)
    · exact Or.inr (Or.inr ⟨h.symm, hs⟩)
  · exact Or.inr (Or.inl h)

lemma sortRel_trans {T : Type} (key : T → List Char) :
    ∀ x y z : T × Int, sortRel key x y → sortRel key y z → sortRel key x z := by
  intro x y z hxy hyz
  rw [sortRel_iff] at hxy hyz ⊢
  rcases hxy with h1 | ⟨h1, hs1⟩
  · rcases hyz with h2 | ⟨h2, _⟩
    · exact Or.inl (lt_trans h1 h2)
    · exact Or.inl (h2 ▸ h1)
  · rcases hyz with h2 | ⟨h2, hs2⟩
    · exact Or.inl (h1 ▸ h2)
    · exact Or.inr ⟨h1.trans h2, strLeB_trans _ _ _ hs1 hs2⟩

lemma sortRel_imp_rankPairLe {T : Type} (key : T → List Char) {x y : T × Int}
    (h : sortRel key x y) : RankPairLe key x y := by
  rw [sortRel_iff] at h
  unfold RankPairLe
  rcases h with h | ⟨h, hs⟩
  · exact Or.inl (by omega)
  · exact Or.inr ⟨by omega, hs⟩

/-- C8: `rank_matches` with an empty query returns the first `limit`
candidates in input order, each with score 0, so exactly
`min limit (number of candidates)` pairs. -/
theorem rank_matches_empty_query {T : Type} (items : List T) (key : T → List Char)
    (limit : Int) (hl : 0 ≤ limit) :
    rank_matches [] items key limit =
        (items.take limit.toNat).map (fun item => (item, 0)) ∧
      (rank_matches [] items key limit).length = min limit.toNat items.length := by
  have h1 : rank_matches [] items key limit =
      (items.take limit.toNat).map (fun item => (item, 0)) := by
    unfold rank_matches pySlice
    simp [hl]
  refine ⟨h1, ?_⟩
  rw [h1]
  simp [List.length_take]

/-- C6 evaluates at the failing input: `rank_matches` with the negative
limit `-1` silently returns a result list (Python's negative-slice
semantics drop the final element, here producing `[]`) instead of
rejecting the call with an error as the spec's InvalidLimit rule
requires; the embedding is a total function precisely because the code
has no rejection path. -/
theorem rank_matches_negative_limit_silent :
    rank_matches ['a'] [(['a'] : List Char)] (fun s => s) (-1) = [] := by decide

/-- C3 counterexample: with an *empty* query, `rank_matches` keeps the
caller-supplied order, so its output is not sorted by the claimed
score/key order for every query: with candidates `["b", "a"]` the
adjacent output pair has equal scores but keys out of order. -/
theorem rank_matches_sorted_cex :
    ¬ List.Chain' (RankPairLe (fun s : List Char => s))
        (rank_matches [] [['b'], ['a']] (fun s => s) 50) := by
  have hout : rank_matches [] [['b'], ['a']] (fun s => s) 50 =
      [(['b'], 0), (['a'], 0)] := by decide
  rw [hout, List.chain'_cons]
  rintro ⟨hpair, _⟩
  revert hpair
  decide

/-- C3 (amended): for every *non-empty* query, adjacent pairs of
`rank_matches` output satisfy score strictly descending or equal scores
with extracted keys ascending; for every query and non-negative limit
the output has length at most `limit`. -/
theorem rank_matches_sorted {T : Type} (query : List Char) (items : List T)
    (key : T → List Char) (limit : Int) (hl : 0 ≤ limit) :
    (query ≠ [] → List.Chain' (RankPairLe key) (rank_matches query items key limit)) ∧
      (rank_matches query items key limit).length ≤ limit.toNat := by
  haveI : IsTotal (T × Int) (sortRel key) := ⟨sortRel_total key⟩
  haveI : IsTrans (T × Int) (sortRel key) := ⟨sortRel_trans key⟩
  constructor
  · intro hq
    unfold rank_matches
    simp only [if_neg hq]
    unfold pySlice
    rw [if_pos hl]
    have hsorted : List.Pairwise (sortRel key)
        (List.insertionSort (sortRel key) (items.filterMap (fun item =>
          (fuzzy_score query (key item)).map (fun s => (item, s))))) :=
      List.sorted_insertionSort (sortRel key) _
    exact ((hsorted.sublist (List.take_sublist _ _)).imp
      (fun h => sortRel_imp_rankPairLe key h)).chain'
  · unfold rank_matches pySlice
    by_cases hq : query = []
    · simp [hq, hl, List.length_take]
    · simp [hq, hl, List.length_take]

/-- Witness for C3's amended theorem at query `"a"`, candidates
`["ba", "a"]`, limit 50. -/
theorem rank_matches_sorted_witness :
    (0 : Int) ≤ 50 ∧
      ((['a'] : List Char) ≠ [] →
        List.Chain' (RankPairLe (fun s : List Char => s))
          (rank_matches ['a'] [['b', 'a'], ['a']] (fun s => s) 50)) ∧
      (rank_matches ['a'] [['b', 'a'], ['a']] (fun s => s) 50).length ≤ (50 : Int).toNat :=
  ⟨by decide, rank_matches_sorted ['a'] [['b', 'a'], ['a']] (fun s => s) 50 (by decide)⟩

/-- Witness for C8 at three candidates and limit 2. -/
theorem rank_matches_empty_query_witness :
    (0 : Int) ≤ 2 ∧
      (rank_matches [] [10, 20, 30] (fun _ : Nat => []) 2 =
          (([10, 20, 30] : List Nat).take (2 : Int).toNat).map (fun item => (item, 0)) ∧
        (rank_matches [] [10, 20, 30] (fun _ : Nat => []) 2).length =
          min (2 : Int).toNat ([10, 20, 30] : List Nat).length) :=
  ⟨by decide, rank_matches_empty_query [10, 20, 30] (fun _ : Nat => []) 2 (by decide)⟩

lemma strReplace_escape (query : List Char) :
    strReplace '_' ['\\', '_'] (strReplace '%' ['\\', '%'] query) = escapeEach query := by
  induction query with
  | nil => rfl
  | cons c cs ih =>
    by_cases h1 : c = '%'
    · subst h1
      simp [strReplace, escapeEach, ih]
    · by_cases h2 : c = '_'
      · subst h2
        simp [strReplace, escapeEach, ih]
      · simp [strReplace, escapeEach, ih, h1, h2]

lemma chain_wild_joinPercent : ∀ es : List Char,
    List.Chain' (fun a b => a = '%' ∨ b = '%') ('%' :: (joinPercent es ++ ['%'])) := by
  intro es
  induction es with
  | nil => simp [joinPercent]
  | cons c cs ih =>
    cases cs with
    | nil =>
      simp only [joinPercent, List.singleton_append, List.cons_append, List.nil_append]
      exact List.chain'_cons.mpr ⟨Or.inl rfl,
        List.chain'_cons.mpr ⟨Or.inr rfl, List.chain'_singleton '%'⟩⟩
    | cons c2 cs2 =>
      simp only [joinPercent, List.cons_append]
      exact List.chain'_cons.mpr ⟨Or.inl rfl, List.chain'_cons.mpr ⟨Or.inr rfl, ih⟩⟩

/-- C5: `build_sql_pattern` escapes the pattern language's wildcard
tokens `%` and `_` by prefixing them with the escape marker `\`, and its
output never contains two adjacent characters that are both literals
(every adjacent pair contains the wildcard `%`). -/
theorem build_sql_pattern_spec (query : List Char) :
    strReplace '_' ['\\', '_'] (strReplace '%' ['\\', '%'] query) = escapeEach query ∧
      List.Chain' (fun a b => a = '%' ∨ b = '%') (build_sql_pattern query) := by
  refine ⟨strReplace_escape query, ?_⟩
  unfold build_sql_pattern
  by_cases hq : query = []
  · simp [hq]
  · simp only [hq, if_false]
    exact chain_wild_joinPercent _

lemma eq_of_perm_of_pairwise {α : Type} {r : α → α → Prop} :
    ∀ {l₁ l₂ : List α}, l₁.Perm l₂ →
      (∀ a ∈ l₁, ∀ b ∈ l₁, r a b → r b a → a = b) →
      l₁.Pairwise r → l₂.Pairwise r → l₁ = l₂ := by
  intro l₁
  induction l₁ with
  | nil => intro l₂ hp _ _ _; exact hp.nil_eq
  | cons a t₁ ih =>
    intro l₂ hp hanti h₁ h₂
    have ha2 : a ∈ l₂ := hp.mem_iff.mp (List.mem_cons_self a t₁)
    cases l₂ with
    | nil => exact absurd ha2 (List.not_mem_nil a)
    | cons b t₂ =>
      have hab : a = b := by
        rcases List.mem_cons.mp ha2 with h | h
        · exact h
        · have hb1 : b ∈ a :: t₁ := hp.mem_iff.mpr (List.mem_cons_self b t₂)
          rcases List.mem_cons.mp hb1 with h' | h'
          · exact h'.symm
          · exact hanti a (List.mem_cons_self _ _) b (List.mem_cons_of_mem _ h')
              (List.rel_of_pairwise_cons h₁ h') (List.rel_of_pairwise_cons h₂ h)
      subst hab
      have hrest : t₁ = t₂ := ih hp.cons_inv
        (fun x hx y hy hr1 hr2 =>
          hanti x (List.mem_cons_of_mem _ hx) y (List.mem_cons_of_mem _ hy) hr1 hr2)
        (List.pairwise_cons.mp h₁).2 (List.pairwise_cons.mp h₂).2
      rw [hrest]

/-- C7 counterexample: two distinct candidates extracting the same key
string keep their input order through the stable sort, so permuting the
input changes the output even for a non-empty query and non-negative
limit. -/
theorem rank_matches_perm_cex :
    ([1, 2] : List Nat).Perm [2, 1] ∧
      rank_matches ['a'] [1, 2] (fun _ => ['a']) 50 ≠
        rank_matches ['a'] [2, 1] (fun _ => ['a']) 50 := by
  constructor
  · decide
  · decide

/-- C7 (amended): when the key extractor is injective on the candidate
list, `rank_matches` with a non-empty query and non-negative limit
returns the identical result sequence for any permutation of the
candidates. -/
theorem rank_matches_perm_invariant {T : Type} (query : List Char) (l₁ l₂ : List T)
    (key : T → List Char) (limit : Int) (hq : query ≠ []) (hl : 0 ≤ limit)
    (hinj : ∀ x ∈ l₁, ∀ y ∈ l₁, key x = key y → x = y) (hperm : l₁.Perm l₂) :
    rank_matches query l₁ key limit = rank_matches query l₂ key limit := by
  haveI : IsTotal (T × Int) (sortRel key) := ⟨sortRel_total key⟩
  haveI : IsTrans (T × Int) (sortRel key) := ⟨sortRel_trans key⟩
  unfold rank_matches
  simp only [if_neg hq]
  have hps : (l₁.filterMap (fun item =>
      (fuzzy_score query (key item)).map (fun s => (item, s)))).Perm
      (l₂.filterMap (fun item =>
        (fuzzy_score query (key item)).map (fun s => (item, s)))) :=
    hperm.filterMap _
  have hmem : ∀ a ∈ List.insertionSort (sortRel key) (l₁.filterMap (fun item =>
      (fuzzy_score query (key item)).map (fun s => (item, s)))),
      a.1 ∈ l₁ := by
    intro a ha
    have : a ∈ l₁.filterMap (fun item =>
        (fuzzy_score query (key item)).map (fun s => (item, s))) :=
      (List.perm_insertionSort _ _).mem_iff.mp ha
    obtain ⟨x, hx, hfx⟩ := List.mem_filterMap.mp this
    cases hs : fuzzy_score query (key x) with
    | none => rw [hs] at hfx; simp at hfx
    | some s =>
      rw [hs] at hfx
      have hxa : (x, s) = a := Option.some.inj hfx
      subst hxa
      exact hx
  have hanti : ∀ a ∈ List.insertionSort (sortRel key) (l₁.filterMap (fun item =>
      (fuzzy_score query (key item)).map (fun s => (item, s)))),
      ∀ b ∈ List.insertionSort (sortRel key) (l₁.filterMap (fun item =>
        (fuzzy_score query (key item)).map (fun s => (item, s)))),
      sortRel key a b → sortRel key b a → a = b := by
    intro a ha b hb hab hba
    rw [sortRel_iff] at hab hba
    have hsc : a.2 = b.2 := by omega
    have hkey : key a.1 = key b.1 := by
      rcases hab with h | ⟨_, hs1⟩
      · omega
      · rcases hba with h | ⟨_, hs2⟩
        · omega
        · exact strLeB_antisymm _ _ hs1 hs2
    have hfst : a.1 = b.1 := hinj a.1 (hmem a ha) b.1 (hmem b hb) hkey
    exact Prod.ext hfst hsc
  have hsorteq : List.insertionSort (sortRel key) (l₁.filterMap (fun item =>
      (fuzzy_score query (key item)).map (fun s => (item, s)))) =
      List.insertionSort (sortRel key) (l₂.filterMap (fun item =>
        (fuzzy_score query (key item)).map (fun s => (item, s)))) :=
    eq_of_perm_of_pairwise
      (((List.perm_insertionSort _ _).trans hps).trans
        (List.perm_insertionSort _ _).symm)
      hanti
      (List.sorted_insertionSort _ _)
      (List.sorted_insertionSort _ _)
  rw [hsorteq]

/-- Witness for C7's amended theorem: distinct keys, permuted inputs,
identical ranked output. -/
theorem rank_matches_perm_invariant_witness :
    ((['a'] : List Char) ≠ [] ∧ (0 : Int) ≤ 50 ∧
      (∀ x ∈ ([['a'], ['b', 'a']] : List (List Char)), ∀ y ∈ [['a'], ['b', 'a']],
        (fun s : List Char => s) x = (fun s : List Char => s) y → x = y) ∧
      ([['a'], ['b', 'a']] : List (List Char)).Perm [['b', 'a'], ['a']]) ∧
      rank_matches ['a'] [['a'], ['b', 'a']] (fun s => s) 50 =
        rank_matches ['a'] [['b', 'a'], ['a']] (fun s => s) 50 :=
  ⟨⟨by decide, by decide, by decide, by decide⟩,
    rank_matches_perm_invariant ['a'] [['a'], ['b', 'a']] [['b', 'a'], ['a']]
      (fun s => s) 50 (by decide) (by decide) (by decide) (by decide)⟩

end LiliumPalette
